import Mathlib

/-!
# Weighted random sampling from the dollar-unit-sampling notebook

A shallow embedding of the notebook function `weightedRandomSample(n, weights)`:

```python
def weightedRandomSample(n, weights):
    if any(weights < 0):
        print 'negative weight in weightedRandomSample'
        return float('NaN')
    else:
        wc = np.cumsum(weights, dtype=float)/np.sum(weights, dtype=float)
        theSam = np.random.random_sample((n,))
        return np.array(wc).searchsorted(theSam), theSam
```

Finite floating-point values are modelled exactly as rationals; the IEEE
special values NaN and ±infinity, which the division can produce when the
total weight is zero, are modelled explicitly by `FloatVal`.  The
pseudo-random source is modelled as a stream `σ : ℕ → ℚ` of uniform values;
`np.random.random_sample((n,))` takes the next `n` values and advances the
stream.
-/

/-- A double-precision value as it flows through the sampler: a finite value
(kept exact as a rational) or one of the IEEE special values that
`np.cumsum(weights)/np.sum(weights)` can produce when the total is zero. -/
inductive FloatVal where
  | num (q : ℚ)
  | inf
  | ninf
  | nan
  deriving DecidableEq

/-- numpy's strict comparison used by `searchsorted` on doubles
(`a < b || (b != b && a == a)`), i.e. the total sort order
`-inf < finite < +inf < NaN`, with NaN sorting last. -/
def npLt : FloatVal → FloatVal → Bool
  | .nan, _ => false
  | _, .ninf => false
  | .ninf, _ => true
  | .num a, .num b => decide (a < b)
  | .num _, _ => true
  | .inf, .nan => true
  | .inf, _ => false

/-- `ndarray.searchsorted` with the default `side='left'` on a sorted array:
the leftmost insertion point for `v`, i.e. the index of the first entry `e`
with `¬ npLt e v` (`a.length` when every entry is below `v`).  The sampler
only ever calls it on arrays sorted in numpy's order: the normalized
cumulative sums of nonnegative weights, or an all-NaN array when the total
weight is zero. -/
def searchsorted (a : List FloatVal) (v : FloatVal) : ℕ :=
  a.findIdx (fun e => ! npLt e v)

/-- `np.cumsum` with an explicit running accumulator. -/
def cumsumFrom (acc : ℚ) : List ℚ → List ℚ
  | [] => []
  | w :: ws => (acc + w) :: cumsumFrom (acc + w) ws

/-- `np.cumsum(weights, dtype=float)`: the running sums of the weights. -/
def cumsum (ws : List ℚ) : List ℚ := cumsumFrom 0 ws

/-- IEEE-754 division of two finite values, as in
`np.cumsum(weights)/np.sum(weights)`: division by a nonzero value is exact,
zero by zero is NaN, and a nonzero value by zero is a signed infinity. -/
def fdiv (a b : ℚ) : FloatVal :=
  if b = 0 then
    if a = 0 then .nan else if 0 < a then .inf else .ninf
  else .num (a / b)

/-- The array `wc = np.cumsum(weights, dtype=float)/np.sum(weights, dtype=float)`
built inside `weightedRandomSample`. -/
def cumulativeWeights (weights : List ℚ) : List FloatVal :=
  (cumsum weights).map (fun c => fdiv c weights.sum)

/-- The cumulative-weight sequence in exact arithmetic: the running sums of
the weights, each divided by the total weight.  For a valid weight sequence
(total nonzero) this is exactly `cumulativeWeights` viewed through
`FloatVal.num`. -/
def cumulativeWeightsQ (weights : List ℚ) : List ℚ :=
  (cumsum weights).map (fun c => c / weights.sum)

/-- Outcome of a call to `weightedRandomSample`:
* `nanReturn` — the negative-weight branch prints
  `'negative weight in weightedRandomSample'` and returns the single scalar
  `float('NaN')` instead of a pair;
* `valueError` — `np.random.random_sample((n,))` raises
  `ValueError: negative dimensions are not allowed` when `n < 0`;
* `ok indices uniforms` — the pair the function returns: the selected
  indices and the raw uniform values. -/
inductive SampleResult where
  | nanReturn
  | valueError
  | ok (indices : List ℕ) (uniforms : List ℚ)
  deriving DecidableEq

/-- `np.random.random_sample((n,))` for `n ≥ 0`: the next `n` values of the
pseudo-random stream `σ`, together with the advanced stream. -/
def randomSample (n : ℕ) (σ : ℕ → ℚ) : List ℚ × (ℕ → ℚ) :=
  ((List.range n).map σ, fun k => σ (k + n))

/-- The notebook's `weightedRandomSample(n, weights)`, with the random source
passed explicitly and returned advanced by however many values were drawn.
The negative-weight check comes first (before any randomness is consumed);
then `wc` is computed; then `np.random.random_sample((n,))` either raises
`ValueError` (for `n < 0`, still before any randomness is consumed) or
yields the `n` uniform draws, and each draw is mapped to an index by
`searchsorted`. -/
def weightedRandomSample (n : ℤ) (weights : List ℚ) (σ : ℕ → ℚ) :
    SampleResult × (ℕ → ℚ) :=
  if weights.any (fun w => decide (w < 0)) then
    (.nanReturn, σ)
  else
    let wc := cumulativeWeights weights
    if n < 0 then
      (.valueError, σ)
    else
      let p := randomSample n.toNat σ
      (.ok (p.1.map (fun t => searchsorted wc (.num t))) p.1, p.2)

/-! ## Lemmas about the cumulative sums -/

theorem cumsumFrom_length (acc : ℚ) (ws : List ℚ) :
    (cumsumFrom acc ws).length = ws.length := by
  induction ws generalizing acc with
  | nil => rfl
  | cons w ws ih => simp [cumsumFrom, ih]

theorem cumsumFrom_getElem (acc : ℚ) (ws : List ℚ) (k : ℕ)
    (hk : k < (cumsumFrom acc ws).length) :
    (cumsumFrom acc ws)[k] = acc + (ws.take (k + 1)).sum := by
  induction ws generalizing acc k with
  | nil => simp [cumsumFrom] at hk
  | cons w ws ih =>
    cases k with
    | zero => simp [cumsumFrom]
    | succ k =>
      have hk' : k < (cumsumFrom (acc + w) ws).length := by
        simpa [cumsumFrom] using hk
      simp [cumsumFrom, ih (acc + w) k hk', add_assoc]

theorem cumsumFrom_getLast? (acc : ℚ) (ws : List ℚ) (h : ws ≠ []) :
    (cumsumFrom acc ws).getLast? = some (acc + ws.sum) := by
  have hlen : (cumsumFrom acc ws).length = ws.length := cumsumFrom_length acc ws
  have hpos : 0 < ws.length := List.length_pos.mpr h
  have hb : ws.length - 1 < (cumsumFrom acc ws).length := by omega
  rw [List.getLast?_eq_getElem?]
  rw [List.getElem?_eq_getElem (by omega)]
  congr 1
  rw [cumsumFrom_getElem acc ws _ (by omega)]
  congr 1
  have : ws.length - 1 + 1 = ws.length := by omega
  rw [hlen, this, List.take_length]

theorem le_of_mem_cumsumFrom (acc : ℚ) (ws : List ℚ) (hnn : ∀ w ∈ ws, 0 ≤ w) :
    ∀ c ∈ cumsumFrom acc ws, acc ≤ c := by
  induction ws generalizing acc with
  | nil => simp [cumsumFrom]
  | cons w ws ih =>
    intro c hc
    have hw : 0 ≤ w := hnn w (by simp)
    simp only [cumsumFrom, List.mem_cons] at hc
    rcases hc with rfl | hc
    · linarith
    · have := ih (acc + w) (fun x hx => hnn x (by simp [hx])) c hc
      linarith

theorem cumsumFrom_pairwise (acc : ℚ) (ws : List ℚ) (hnn : ∀ w ∈ ws, 0 ≤ w) :
    (cumsumFrom acc ws).Pairwise (· ≤ ·) := by
  induction ws generalizing acc with
  | nil => simp [cumsumFrom]
  | cons w ws ih =>
    simp only [cumsumFrom, List.pairwise_cons]
    refine ⟨fun c hc => ?_, ih (acc + w) (fun x hx => hnn x (by simp [hx]))⟩
    exact le_of_mem_cumsumFrom (acc + w) ws (fun x hx => hnn x (by simp [hx])) c hc

theorem cumsumFrom_all_zero (acc : ℚ) (ws : List ℚ) (h : ∀ w ∈ ws, w = 0) :
    ∀ c ∈ cumsumFrom acc ws, c = acc := by
  induction ws generalizing acc with
  | nil => simp [cumsumFrom]
  | cons w ws ih =>
    intro c hc
    have hw : w = 0 := h w (by simp)
    subst hw
    simp only [cumsumFrom, List.mem_cons, add_zero] at hc
    rcases hc with rfl | hc
    · rfl
    · exact ih acc (fun x hx => h x (by simp [hx])) c hc

theorem sum_pos_of_mem_pos (ws : List ℚ) (hnn : ∀ w ∈ ws, 0 ≤ w)
    (w₀ : ℚ) (hmem : w₀ ∈ ws) (hpos : 0 < w₀) : 0 < ws.sum :=
  lt_of_lt_of_le hpos (List.single_le_sum hnn w₀ hmem)

/-! ## Lemmas about `searchsorted` and the normalized cumulative array -/

theorem findIdx_map_eq {α β : Type} (f : α → β) (p : β → Bool) (l : List α) :
    (l.map f).findIdx p = l.findIdx (fun a => p (f a)) := by
  induction l with
  | nil => rfl
  | cons a l ih => simp [List.findIdx_cons, ih]

theorem npLt_num_num (a b : ℚ) : npLt (.num a) (.num b) = decide (a < b) := rfl

theorem searchsorted_map_num (l : List ℚ) (t : ℚ) :
    searchsorted (l.map FloatVal.num) (.num t) =
      l.findIdx (fun c => decide (t ≤ c)) := by
  unfold searchsorted
  rw [findIdx_map_eq]
  congr 1
  funext c
  rw [npLt_num_num]
  by_cases h : c < t
  · simp [h, not_le.mpr h]
  · simp [h, not_lt.mp h]

theorem searchsorted_nan_num (L : List FloatVal) (hL : ∀ e ∈ L, e = .nan) (t : ℚ) :
    searchsorted L (.num t) = 0 := by
  cases L with
  | nil => rfl
  | cons e L =>
    have he : e = .nan := hL e (by simp)
    subst he
    simp [searchsorted, List.findIdx_cons, npLt]

theorem cumulativeWeights_eq_map (weights : List ℚ) (h : weights.sum ≠ 0) :
    cumulativeWeights weights = (cumulativeWeightsQ weights).map FloatVal.num := by
  unfold cumulativeWeights cumulativeWeightsQ
  rw [List.map_map]
  congr 1
  funext c
  simp [Function.comp, fdiv, h]

theorem cumulativeWeights_all_zero (weights : List ℚ) (h : ∀ w ∈ weights, w = 0) :
    ∀ e ∈ cumulativeWeights weights, e = .nan := by
  have hsum : weights.sum = 0 := List.sum_eq_zero h
  intro e he
  unfold cumulativeWeights at he
  rcases List.mem_map.mp he with ⟨c, hc, rfl⟩
  have hc0 : c = 0 := cumsumFrom_all_zero 0 weights h c hc
  simp [fdiv, hsum, hc0]

theorem cumulativeWeightsQ_length (weights : List ℚ) :
    (cumulativeWeightsQ weights).length = weights.length := by
  simp [cumulativeWeightsQ, cumsum, cumsumFrom_length]

theorem cumulativeWeightsQ_getElem (weights : List ℚ) (k : ℕ)
    (hk : k < (cumulativeWeightsQ weights).length) :
    (cumulativeWeightsQ weights)[k] = (weights.take (k + 1)).sum / weights.sum := by
  have hk2 : k < (cumsumFrom 0 weights).length := by
    simpa [cumulativeWeightsQ, cumsum] using hk
  simp only [cumulativeWeightsQ, cumsum, List.getElem_map]
  rw [cumsumFrom_getElem 0 weights k hk2, zero_add]

theorem cumulativeWeightsQ_getLast? (weights : List ℚ) (hne : weights ≠ [])
    (htot : weights.sum ≠ 0) :
    (cumulativeWeightsQ weights).getLast? = some 1 := by
  unfold cumulativeWeightsQ
  rw [List.getLast?_map, cumsum, cumsumFrom_getLast? 0 weights hne]
  simp [htot]

theorem cumulativeWeightsQ_sorted (weights : List ℚ)
    (hnn : ∀ w ∈ weights, 0 ≤ w) (htot : 0 < weights.sum) :
    List.Sorted (· ≤ ·) (cumulativeWeightsQ weights) := by
  unfold cumulativeWeightsQ List.Sorted
  rw [List.pairwise_map]
  refine (cumsumFrom_pairwise 0 weights hnn).imp ?_
  intro a b hab
  exact (div_le_div_iff_of_pos_right htot).mpr hab

/-! ## Lemmas about the sampler itself -/

theorem weightedRandomSample_ok (n : ℤ) (weights : List ℚ) (σ : ℕ → ℚ)
    (hnn : ∀ w ∈ weights, 0 ≤ w) (hn : 0 ≤ n) :
    weightedRandomSample n weights σ =
      (.ok (((List.range n.toNat).map σ).map
          (fun t => searchsorted (cumulativeWeights weights) (.num t)))
        ((List.range n.toNat).map σ),
       fun k => σ (k + n.toNat)) := by
  have hany : (weights.any fun w => decide (w < 0)) = false := by
    rw [List.any_eq_false]
    intro w hw
    simpa using not_lt.mpr (hnn w hw)
  simp [weightedRandomSample, randomSample, hany, not_lt.mpr hn]

/-- Core of the weight-zero exclusion: for a strictly positive draw `t`, the
index found by the lower-bound search on the exact cumulative sequence always
carries a strictly positive weight. -/
theorem pos_weight_at_findIdx (weights : List ℚ) (t : ℚ)
    (hnn : ∀ w ∈ weights, 0 ≤ w) (htot : 0 < weights.sum)
    (ht0 : 0 < t) (ht1 : t < 1) (hne : weights ≠ []) :
    0 < weights.getD
      ((cumulativeWeightsQ weights).findIdx (fun c => decide (t ≤ c))) 0 := by
  have hlen : (cumulativeWeightsQ weights).length = weights.length :=
    cumulativeWeightsQ_length weights
  have hlast : (cumulativeWeightsQ weights).getLast? = some 1 :=
    cumulativeWeightsQ_getLast? weights hne htot.ne'
  have hmem1 : (1 : ℚ) ∈ cumulativeWeightsQ weights :=
    List.mem_of_getLast?_eq_some hlast
  have hilt : (cumulativeWeightsQ weights).findIdx (fun c => decide (t ≤ c)) <
      (cumulativeWeightsQ weights).length :=
    List.findIdx_lt_length_of_exists ⟨1, hmem1, by simpa using le_of_lt ht1⟩
  have hfound : t ≤ (weights.take
      ((cumulativeWeightsQ weights).findIdx (fun c => decide (t ≤ c)) + 1)).sum
        / weights.sum := by
    have h1 := List.findIdx_getElem (p := fun c => decide (t ≤ c)) (w := hilt)
    simp only [decide_eq_true_eq] at h1
    have heq := cumulativeWeightsQ_getElem weights _ hilt
    rw [← heq]
    exact h1
  have hmin : ∀ k, k < (cumulativeWeightsQ weights).findIdx (fun c => decide (t ≤ c)) →
      (weights.take (k + 1)).sum / weights.sum < t := by
    intro k hk
    have hkQ : k < (cumulativeWeightsQ weights).length := lt_trans hk hilt
    have h2 := List.not_of_lt_findIdx hk
    simp only [decide_eq_false_iff_not, not_le] at h2
    have heq := cumulativeWeightsQ_getElem weights k hkQ
    rw [← heq]
    exact h2
  generalize hieq : (cumulativeWeightsQ weights).findIdx (fun c => decide (t ≤ c)) = i
    at hilt hfound hmin ⊢
  have hiw : i < weights.length := hlen ▸ hilt
  rw [List.getD_eq_getElem _ _ hiw]
  rcases lt_or_le 0 (weights.get ⟨i, hiw⟩) with h | h
  · simpa using h
  exfalso
  have hzero : weights.get ⟨i, hiw⟩ = 0 :=
    le_antisymm h (hnn _ (List.get_mem weights i hiw))
  clear hilt hieq
  cases i with
  | zero =>
    have h0 : (weights.take 1).sum = 0 := by
      rcases weights with _ | ⟨w, ws⟩
      · exact absurd rfl hne
      · have hw : w = 0 := by simpa using hzero
        simp [hw]
    rw [h0, zero_div] at hfound
    exact absurd (lt_of_lt_of_le ht0 hfound) (lt_irrefl 0)
  | succ k =>
    have hkw : k + 1 < weights.length := hiw
    have hsum := List.sum_take_succ weights (k + 1) hkw
    have hz : weights.get ⟨k + 1, hkw⟩ = 0 := hzero
    have hstep : (weights.take (k + 1 + 1)).sum = (weights.take (k + 1)).sum := by
      rw [hsum]
      have : weights[k + 1] = 0 := hz
      rw [this, add_zero]
    rw [hstep] at hfound
    have hk := hmin k (Nat.lt_succ_self k)
    exact absurd (lt_of_le_of_lt hfound hk) (lt_irrefl t)

/-! ## The claims

Concrete runs of the sampler are settled by `decide`; the rational
arithmetic `Rat.add`, `Rat.mul`, `Rat.inv` and `Rat.sub` is marked
irreducible in the library purely as an elaboration-performance measure, so
it is made semireducible locally to let the evaluation proceed (the kernel
never consults reducibility attributes, so this changes nothing about what
is proved). -/

section ConcreteRuns

attribute [local semireducible] Rat.add Rat.mul Rat.inv Rat.sub

/-- C1: counterexample — with weights `[1, 2, 3, 4]` and uniform draws
`[0.05, 0.65, 0.95]`, the sampler does not return the selected indices
`[0, 2, 3]`: the draw 0.65 exceeds the cumulative entry 0.6, so it selects
index 3, as does 0.95. -/
theorem claim1_counterexample :
    (weightedRandomSample 3 [1, 2, 3, 4]
        (fun k => [1/20, 13/20, 19/20].getD k 0)).1 ≠
      .ok [0, 2, 3] [1/20, 13/20, 19/20] := by
  decide

/-- C1 (amended): with weights `[1, 2, 3, 4]` and uniform draws
`[0.05, 0.65, 0.95]`, the internal cumulative sequence is
`[0.1, 0.3, 0.6, 1.0]` and the selected indices are `[0, 3, 3]`
(0.05 → 0, 0.65 → 3, 0.95 → 3), returned together with the raw draws. -/
theorem claim1_concrete_scenario :
    cumulativeWeights [1, 2, 3, 4] =
        [.num (1/10), .num (3/10), .num (3/5), .num 1] ∧
      (weightedRandomSample 3 [1, 2, 3, 4]
          (fun k => [1/20, 13/20, 19/20].getD k 0)).1 =
        .ok [0, 3, 3] [1/20, 13/20, 19/20] := by
  constructor
  · decide
  · decide

/-- C2: counterexample — `sample(n=5, weights=[1, -2, 3])` does not give the
caller a labelled error value: it takes the branch that prints a warning and
returns the scalar `float('NaN')`. -/
theorem claim2_counterexample :
    (weightedRandomSample 5 [1, -2, 3] (fun _ => 1/2)).1 = .nanReturn := by
  decide

/-- C2 (amended): whenever some weight is negative, the sampler prints a
warning and returns the scalar `float('NaN')` instead of a labelled error,
for every requested `n`; no random value is consumed (the stream is returned
unchanged). -/
theorem claim2_negative_weight_nan (n : ℤ) (weights : List ℚ) (σ : ℕ → ℚ)
    (h : ∃ w ∈ weights, w < 0) :
    weightedRandomSample n weights σ = (.nanReturn, σ) := by
  have hany : (weights.any fun w => decide (w < 0)) = true := by
    rw [List.any_eq_true]
    obtain ⟨w, hw, hneg⟩ := h
    exact ⟨w, hw, by simpa using hneg⟩
  simp [weightedRandomSample, hany]

/-- C2: witness — the amended statement at `n = 5`, `weights = [1, -2, 3]`. -/
theorem claim2_witness :
    weightedRandomSample 5 [1, -2, 3] (fun _ => (1 : ℚ)/2) =
      (.nanReturn, fun _ => (1 : ℚ)/2) :=
  claim2_negative_weight_nan 5 [1, -2, 3] (fun _ => (1 : ℚ)/2)
    ⟨-2, by simp, by norm_num⟩

/-- C3: counterexample — `sample(n=5, weights=[0, 0, 0])` does not fail: the
zero total makes every cumulative entry NaN via 0/0, `searchsorted` then
returns 0 for every draw, and the call succeeds with five zero indices. -/
theorem claim3_counterexample :
    (weightedRandomSample 5 [0, 0, 0] (fun _ => 1/2)).1 =
      .ok [0, 0, 0, 0, 0] [1/2, 1/2, 1/2, 1/2, 1/2] := by
  decide

/-- C3 (amended): for all-zero weights and any `n ≥ 0`, the sampler does not
detect the degenerate distribution: dividing the cumulative sums by the zero
total yields an all-NaN array, `searchsorted` maps every draw to index 0,
and the call succeeds, returning `n` zero indices together with the `n`
uniform draws it consumed. -/
theorem claim3_all_zero_weights (n : ℤ) (weights : List ℚ) (σ : ℕ → ℚ)
    (h : ∀ w ∈ weights, w = 0) (hn : 0 ≤ n) :
    weightedRandomSample n weights σ =
      (.ok (List.replicate n.toNat 0) ((List.range n.toNat).map σ),
       fun k => σ (k + n.toNat)) := by
  have hnn : ∀ w ∈ weights, 0 ≤ w := fun w hw => le_of_eq (h w hw).symm
  rw [weightedRandomSample_ok n weights σ hnn hn]
  have hkey : ∀ t : ℚ, searchsorted (cumulativeWeights weights) (.num t) = 0 :=
    fun t => searchsorted_nan_num _ (cumulativeWeights_all_zero weights h) t
  simp only [hkey]
  congr 1
  congr 1
  rw [List.map_const']
  simp

/-- C3: witness — the amended statement at `n = 5`, `weights = [0, 0, 0]`. -/
theorem claim3_witness :
    weightedRandomSample 5 [0, 0, 0] (fun _ => (1 : ℚ)/2) =
      (.ok (List.replicate (5 : ℤ).toNat 0)
          ((List.range (5 : ℤ).toNat).map (fun _ => (1 : ℚ)/2)),
       fun k => (fun _ => (1 : ℚ)/2) (k + (5 : ℤ).toNat)) :=
  claim3_all_zero_weights 5 [0, 0, 0] (fun _ => (1 : ℚ)/2) (by decide) (by decide)

/-- C4: counterexample — for `n = -1` with the negative weight `-2` also
present, the sampler returns the NaN value from the negative-weight branch
rather than failing with an invalid-argument error. -/
theorem claim4_counterexample :
    (weightedRandomSample (-1) [1, -2, 3] (fun _ => 1/2)).1 = .nanReturn ∧
      (weightedRandomSample (-1) [1, -2, 3] (fun _ => 1/2)).1 ≠ .valueError := by
  constructor
  · decide
  · decide

/-- C4 (amended): for `n < 0` with no negative weight, the call fails with
the `ValueError` that `np.random.random_sample((n,))` raises on a negative
dimension (numpy's invalid-argument error), consuming no random value; when
a negative weight is also present, the NaN return takes precedence. -/
theorem claim4_negative_n (n : ℤ) (weights : List ℚ) (σ : ℕ → ℚ)
    (hnn : ∀ w ∈ weights, 0 ≤ w) (hn : n < 0) :
    weightedRandomSample n weights σ = (.valueError, σ) := by
  have hany : (weights.any fun w => decide (w < 0)) = false := by
    rw [List.any_eq_false]
    intro w hw
    simpa using not_lt.mpr (hnn w hw)
  simp [weightedRandomSample, hany, hn]

/-- C4: witness — the amended statement at `n = -1`, `weights = [1, 2, 3]`. -/
theorem claim4_witness :
    weightedRandomSample (-1) [1, 2, 3] (fun _ => (1 : ℚ)/2) =
      (.valueError, fun _ => (1 : ℚ)/2) :=
  claim4_negative_n (-1) [1, 2, 3] (fun _ => (1 : ℚ)/2) (by decide) (by decide)

/-- C9: `n = 0` with nonnegative weights succeeds and returns two empty
sequences, consuming no random value. -/
theorem claim9_n_zero_empty (weights : List ℚ) (σ : ℕ → ℚ)
    (hnn : ∀ w ∈ weights, 0 ≤ w) :
    weightedRandomSample 0 weights σ = (.ok [] [], σ) := by
  have h := weightedRandomSample_ok 0 weights σ hnn le_rfl
  simpa using h

/-- C9: witness — `sample(n=0, weights=[1, 2, 3])` returns two empty
sequences. -/
theorem claim9_witness :
    weightedRandomSample 0 [1, 2, 3] (fun _ => (1 : ℚ)/2) =
      (.ok [] [], fun _ => (1 : ℚ)/2) :=
  claim9_n_zero_empty [1, 2, 3] (fun _ => (1 : ℚ)/2) (by decide)

/-- C5: for every valid weight sequence (nonempty, nonnegative, some weight
positive), every `n ≥ 0` and every stream of uniform draws in `[0, 1)`, the
call succeeds and every returned index lies in `[0, N-1]`, a valid position
into the population. -/
theorem claim5_index_bounds (n : ℤ) (weights : List ℚ) (σ : ℕ → ℚ)
    (hne : weights ≠ []) (hnn : ∀ w ∈ weights, 0 ≤ w)
    (hpos : ∃ w ∈ weights, 0 < w) (hn : 0 ≤ n)
    (hdraw : ∀ k, k < n.toNat → 0 ≤ σ k ∧ σ k < 1) :
    ∃ idxs us, (weightedRandomSample n weights σ).1 = .ok idxs us ∧
      ∀ j ∈ idxs, j < weights.length := by
  obtain ⟨w₀, hw₀, hw₀pos⟩ := hpos
  have htot : (0:ℚ) < weights.sum := sum_pos_of_mem_pos weights hnn w₀ hw₀ hw₀pos
  have hunf := weightedRandomSample_ok n weights σ hnn hn
  refine ⟨((List.range n.toNat).map σ).map
      (fun t => searchsorted (cumulativeWeights weights) (.num t)),
    (List.range n.toNat).map σ, by rw [hunf], ?_⟩
  intro j hj
  rcases List.mem_map.mp hj with ⟨t, ht, rfl⟩
  rcases List.mem_map.mp ht with ⟨k, hk, rfl⟩
  have hk' : k < n.toNat := List.mem_range.mp hk
  obtain ⟨h0, h1⟩ := hdraw k hk'
  rw [cumulativeWeights_eq_map weights htot.ne', searchsorted_map_num]
  have hlast : (cumulativeWeightsQ weights).getLast? = some 1 :=
    cumulativeWeightsQ_getLast? weights hne htot.ne'
  have hmem1 : (1 : ℚ) ∈ cumulativeWeightsQ weights :=
    List.mem_of_getLast?_eq_some hlast
  have hidx : (cumulativeWeightsQ weights).findIdx (fun c => decide (σ k ≤ c)) <
      (cumulativeWeightsQ weights).length :=
    List.findIdx_lt_length_of_exists ⟨1, hmem1, by simpa using le_of_lt h1⟩
  rw [cumulativeWeightsQ_length] at hidx
  exact hidx

/-- C5: witness — the statement at `n = 3`, `weights = [1, 2, 3, 4]`, draws
`[0.05, 0.65, 0.95]`. -/
theorem claim5_witness :
    ∃ idxs us,
      (weightedRandomSample 3 [1, 2, 3, 4]
          (fun k => [1/20, 13/20, 19/20].getD k 0)).1 = .ok idxs us ∧
        ∀ j ∈ idxs, j < ([1, 2, 3, 4] : List ℚ).length :=
  claim5_index_bounds 3 [1, 2, 3, 4] (fun k => [1/20, 13/20, 19/20].getD k 0)
    (by decide) (by decide) ⟨1, by decide, by decide⟩ (by decide) (by decide)

/-- C6: for every valid input, the two returned sequences are mutually
consistent: the list of indices is exactly the list of uniform values mapped
through the lower-bound search over the exact cumulative-weight sequence, so
a caller can recompute each index from the corresponding uniform value and
the weights. -/
theorem claim6_index_consistency (n : ℤ) (weights : List ℚ) (σ : ℕ → ℚ)
    (hnn : ∀ w ∈ weights, 0 ≤ w) (hpos : ∃ w ∈ weights, 0 < w) (hn : 0 ≤ n) :
    ∃ idxs us, (weightedRandomSample n weights σ).1 = .ok idxs us ∧
      idxs = us.map (fun t => (cumulativeWeightsQ weights).findIdx
        (fun c => decide (t ≤ c))) := by
  obtain ⟨w₀, hw₀, hw₀pos⟩ := hpos
  have htot : (0:ℚ) < weights.sum := sum_pos_of_mem_pos weights hnn w₀ hw₀ hw₀pos
  have hunf := weightedRandomSample_ok n weights σ hnn hn
  refine ⟨((List.range n.toNat).map σ).map
      (fun t => searchsorted (cumulativeWeights weights) (.num t)),
    (List.range n.toNat).map σ, by rw [hunf], ?_⟩
  apply List.map_congr_left
  intro t ht
  rw [cumulativeWeights_eq_map weights htot.ne', searchsorted_map_num]

/-- C6: witness — the statement at `n = 2`, `weights = [1, 2, 3]`, draws
`[0.25, 0.75]`. -/
theorem claim6_witness :
    ∃ idxs us,
      (weightedRandomSample 2 [1, 2, 3] (fun k => [1/4, 3/4].getD k 0)).1 =
          .ok idxs us ∧
        idxs = us.map (fun t => (cumulativeWeightsQ [1, 2, 3]).findIdx
          (fun c => decide (t ≤ c))) :=
  claim6_index_consistency 2 [1, 2, 3] (fun k => [1/4, 3/4].getD k 0)
    (by decide) ⟨1, by decide, by decide⟩ (by decide)

/-- C7 (amended): for every valid weight sequence and draws in the open
interval `(0, 1)`, every returned index carries a strictly positive weight;
the sole boundary exception, excluded here, is a draw of exactly 0.0 when
`weights[0] == 0`, which selects the zero-weight index 0. -/
theorem claim7_zero_weight_exclusion (n : ℤ) (weights : List ℚ) (σ : ℕ → ℚ)
    (hne : weights ≠ []) (hnn : ∀ w ∈ weights, 0 ≤ w)
    (hpos : ∃ w ∈ weights, 0 < w) (hn : 0 ≤ n)
    (hdraw : ∀ k, k < n.toNat → 0 < σ k ∧ σ k < 1) :
    ∃ idxs us, (weightedRandomSample n weights σ).1 = .ok idxs us ∧
      ∀ j ∈ idxs, 0 < weights.getD j 0 := by
  obtain ⟨w₀, hw₀, hw₀pos⟩ := hpos
  have htot : (0:ℚ) < weights.sum := sum_pos_of_mem_pos weights hnn w₀ hw₀ hw₀pos
  have hunf := weightedRandomSample_ok n weights σ hnn hn
  refine ⟨((List.range n.toNat).map σ).map
      (fun t => searchsorted (cumulativeWeights weights) (.num t)),
    (List.range n.toNat).map σ, by rw [hunf], ?_⟩
  intro j hj
  rcases List.mem_map.mp hj with ⟨t, ht, rfl⟩
  rcases List.mem_map.mp ht with ⟨k, hk, rfl⟩
  have hk' : k < n.toNat := List.mem_range.mp hk
  obtain ⟨h0, h1⟩ := hdraw k hk'
  rw [cumulativeWeights_eq_map weights htot.ne', searchsorted_map_num]
  exact pos_weight_at_findIdx weights (σ k) hnn htot h0 h1 hne

/-- C7: counterexample to the claim as stated over all draws in `[0, 1)` —
with weights `[0, 1]` the draw `t = 0.0` (a value `random_sample` can
produce) selects index 0, whose weight is zero. -/
theorem claim7_counterexample :
    (weightedRandomSample 1 [0, 1] (fun _ => 0)).1 = .ok [0] [0] ∧
      ([0, 1] : List ℚ).getD 0 1 = 0 := by
  constructor
  · decide
  · decide

/-- C7: witness — the amended statement at `n = 2`, `weights = [1, 0, 2]`,
draws `[1/3, 2/3]`. -/
theorem claim7_witness :
    ∃ idxs us,
      (weightedRandomSample 2 [1, 0, 2] (fun k => [1/3, 2/3].getD k 0)).1 =
          .ok idxs us ∧
        ∀ j ∈ idxs, 0 < ([1, 0, 2] : List ℚ).getD j 0 :=
  claim7_zero_weight_exclusion 2 [1, 0, 2] (fun k => [1/3, 2/3].getD k 0)
    (by decide) (by decide) ⟨1, by decide, by decide⟩ (by decide) (by decide)

/-- C8: for every valid weight sequence, the internal cumulative array is
the exact cumulative-weight sequence viewed through `FloatVal.num`; that
exact sequence is monotonically non-decreasing and its final entry equals 1
exactly. -/
theorem claim8_cumulative_monotone (weights : List ℚ)
    (hne : weights ≠ []) (hnn : ∀ w ∈ weights, 0 ≤ w)
    (hpos : ∃ w ∈ weights, 0 < w) :
    cumulativeWeights weights = (cumulativeWeightsQ weights).map FloatVal.num ∧
      List.Sorted (· ≤ ·) (cumulativeWeightsQ weights) ∧
      (cumulativeWeightsQ weights).getLast? = some 1 := by
  obtain ⟨w₀, hw₀, hw₀pos⟩ := hpos
  have htot : (0:ℚ) < weights.sum := sum_pos_of_mem_pos weights hnn w₀ hw₀ hw₀pos
  exact ⟨cumulativeWeights_eq_map weights htot.ne',
    cumulativeWeightsQ_sorted weights hnn htot,
    cumulativeWeightsQ_getLast? weights hne htot.ne'⟩

/-- C8: witness — the statement at `weights = [1, 2, 3, 4]`. -/
theorem claim8_witness :
    cumulativeWeights [1, 2, 3, 4] =
        (cumulativeWeightsQ [1, 2, 3, 4]).map FloatVal.num ∧
      List.Sorted (· ≤ ·) (cumulativeWeightsQ [1, 2, 3, 4]) ∧
      (cumulativeWeightsQ [1, 2, 3, 4]).getLast? = some 1 :=
  claim8_cumulative_monotone [1, 2, 3, 4] (by decide) (by decide)
    ⟨1, by decide, by decide⟩

/-- C10: ties at cumulative boundaries follow the left/lower-bound
convention: when a draw `t` is exactly equal to one or more entries of the
cumulative-weight sequence, the sampler returns the smallest index whose
entry equals `t` (the entry there equals `t` and no earlier entry does); in
particular a draw of exactly 0.0 with `weights[0] == 0` returns the
zero-weight index 0 (see the witness). -/
theorem claim10_left_bound_convention (weights : List ℚ) (σ : ℕ → ℚ) (t : ℚ)
    (hne : weights ≠ []) (hnn : ∀ w ∈ weights, 0 ≤ w)
    (hpos : ∃ w ∈ weights, 0 < w) (hσ : σ 0 = t)
    (hmem : t ∈ cumulativeWeightsQ weights) :
    ∃ i, (weightedRandomSample 1 weights σ).1 = .ok [i] [t] ∧
      (cumulativeWeightsQ weights)[i]? = some t ∧
      ∀ k, k < i → (cumulativeWeightsQ weights)[k]? ≠ some t := by
  obtain ⟨w₀, hw₀, hw₀pos⟩ := hpos
  have htot : (0:ℚ) < weights.sum := sum_pos_of_mem_pos weights hnn w₀ hw₀ hw₀pos
  have hunf := weightedRandomSample_ok 1 weights σ hnn (by norm_num)
  have hilt : (cumulativeWeightsQ weights).findIdx (fun c => decide (t ≤ c)) <
      (cumulativeWeightsQ weights).length :=
    List.findIdx_lt_length_of_exists ⟨t, hmem, by simp⟩
  refine ⟨(cumulativeWeightsQ weights).findIdx (fun c => decide (t ≤ c)),
    ?_, ?_, ?_⟩
  · rw [hunf]
    have hr1 : List.range (Int.toNat 1) = [0] := rfl
    simp only [hr1, List.map_cons, List.map_nil, hσ,
      cumulativeWeights_eq_map weights htot.ne', searchsorted_map_num]
  · rcases List.mem_iff_getElem.mp hmem with ⟨j, hjlen, hjeq⟩
    have hij : (cumulativeWeightsQ weights).findIdx (fun c => decide (t ≤ c)) ≤ j := by
      by_contra hlt
      push_neg at hlt
      have h2 := List.not_of_lt_findIdx (p := fun c => decide (t ≤ c)) hlt
      simp only [decide_eq_false_iff_not, not_le] at h2
      have h3 : (cumulativeWeightsQ weights)[j] < t := h2
      rw [hjeq] at h3
      exact absurd h3 (lt_irrefl t)
    rcases lt_or_eq_of_le hij with hlt | heq
    · have hge : t ≤ (cumulativeWeightsQ weights)[(cumulativeWeightsQ
          weights).findIdx (fun c => decide (t ≤ c))] := by
        simpa using List.findIdx_getElem (w := hilt)
      have hsorted := cumulativeWeightsQ_sorted weights hnn htot
      have hpw := List.pairwise_iff_getElem.mp hsorted _ j hilt hjlen hlt
      rw [List.getElem?_eq_getElem hilt]
      have heqt : (cumulativeWeightsQ weights)[(cumulativeWeightsQ
          weights).findIdx (fun c => decide (t ≤ c))] = t :=
        le_antisymm (hjeq ▸ hpw) hge
      rw [heqt]
    · rw [heq, List.getElem?_eq_getElem hjlen, hjeq]
  · intro k hk
    have hkQ : k < (cumulativeWeightsQ weights).length := lt_trans hk hilt
    have h2 := List.not_of_lt_findIdx (p := fun c => decide (t ≤ c)) hk
    simp only [decide_eq_false_iff_not, not_le] at h2
    have h3 : (cumulativeWeightsQ weights)[k] < t := h2
    rw [List.getElem?_eq_getElem hkQ]
    intro hcontra
    rw [Option.some.inj hcontra] at h3
    exact absurd h3 (lt_irrefl t)

/-- C10: witness — with `weights = [0, 1]` (cumulative sequence `[0, 1]`)
and the draw exactly 0.0, the sampler returns index 0, the smallest index
whose cumulative entry equals the draw, even though its weight is zero. -/
theorem claim10_witness :
    ∃ i, (weightedRandomSample 1 [0, 1] (fun _ => 0)).1 = .ok [i] [0] ∧
      (cumulativeWeightsQ [0, 1])[i]? = some 0 ∧
      ∀ k, k < i → (cumulativeWeightsQ [0, 1])[k]? ≠ some 0 :=
  claim10_left_bound_convention [0, 1] (fun _ => 0) 0 (by decide) (by decide)
    ⟨1, by decide, by decide⟩ rfl (by decide)

end ConcreteRuns
